import Mathlib

/-!
Verification of the provisional-diagnosis extraction pipeline
(Section Locator and Fallback Coordinator in main.py, Lexicon-Constrained
Corrector in levl2.py, Code Resolver in icd10.py).

Strings are modelled as lists of characters.  The regular expressions used by
the source reduce to three character classes: word characters (backslash-w:
alphanumerics and underscore), whitespace (backslash-s) and everything else
(punctuation).  The tokenizers below embed the findall / sub calls of the
source files.
-/

abbrev Str := List Char

/-- A word character in the sense of the regex class used throughout the
source (alphanumeric or underscore). -/
def isWordChar (c : Char) : Bool := c.isAlphanum || c == '_'

/-- Characters kept by the substitution that deletes punctuation while
keeping word characters and whitespace. -/
def keepChar (c : Char) : Bool := isWordChar c || c.isWhitespace

/-- Python str.lower, restricted to the basic latin letters that occur in
this pipeline. -/
def lower (s : Str) : Str := s.map Char.toLower

/-- Deleting every non-word character from a single token, as the sub call
inside the alignment walk of correct_text does. -/
def stripTok (t : Str) : Str := t.filter isWordChar

/-- The punctuation-stripped form of a token when it is non-empty. -/
def stripNE (t : Str) : Option Str :=
  if stripTok t = [] then none else some (stripTok t)

/-- Maximal runs of non-whitespace characters (the findall of one or more
non-space characters); the accumulator holds the current run reversed. -/
def tokAux : Str → Str → List Str
  | [], acc => if acc = [] then [] else [acc.reverse]
  | c :: cs, acc =>
    if c.isWhitespace then
      (if acc = [] then tokAux cs [] else acc.reverse :: tokAux cs [])
    else tokAux cs (c :: acc)

/-- Whitespace-delimited tokens of a text. -/
def tokens (l : Str) : List Str := tokAux l []

/-- Joining a token list with single spaces (str.join with a space). -/
def joinSpaces : List Str → Str
  | [] => []
  | [t] => t
  | t :: ts => t ++ ' ' :: joinSpaces ts

theorem ws_chars {c : Char} (h : c.isWhitespace = true) :
    c = ' ' ∨ c = '\t' ∨ c = '\r' ∨ c = '\n' := by
  simp [Char.isWhitespace] at h
  tauto

theorem word_not_ws {c : Char} (h : isWordChar c = true) :
    c.isWhitespace = false := by
  cases hw : c.isWhitespace with
  | false => rfl
  | true =>
    rcases ws_chars hw with h1 | h1 | h1 | h1 <;> subst h1 <;>
      exact absurd h (by decide)

theorem keep_of_ws {c : Char} (h : c.isWhitespace = true) :
    keepChar c = true := by
  simp [keepChar, h]

theorem keep_of_word {c : Char} (h : isWordChar c = true) :
    keepChar c = true := by
  simp [keepChar, h]

theorem keep_false {c : Char} (h : keepChar c = false) :
    isWordChar c = false ∧ c.isWhitespace = false := by
  simpa [keepChar] using h

theorem lower_eq_nil {w : Str} : lower w = [] ↔ w = [] := by
  simp [lower]

/-- Deleting punctuation before splitting commutes with splitting: the run
structure of the filtered text is the stripped run structure of the
original text. -/
theorem tokAux_filter (l : Str) : ∀ acc : Str,
    tokAux (l.filter keepChar) (acc.filter isWordChar) =
      (tokAux l acc).filterMap stripNE := by
  induction l with
  | nil =>
    intro acc
    simp only [List.filter_nil, tokAux]
    by_cases hacc : acc = []
    · simp [hacc]
    · rw [if_neg hacc]
      by_cases hfa : acc.filter isWordChar = []
      · have hs : stripNE acc.reverse = none := by
          simp [stripNE, stripTok, List.filter_reverse, hfa]
        simp [hfa, hs]
      · have hs : stripNE acc.reverse = some ((acc.filter isWordChar).reverse) := by
          simp [stripNE, stripTok, List.filter_reverse, hfa]
        rw [if_neg hfa]
        simp [hs]
  | cons c cs ih =>
    intro acc
    by_cases hw : c.isWhitespace
    · rw [List.filter_cons_of_pos (keep_of_ws hw)]
      simp only [tokAux, hw, if_pos]
      by_cases hacc : acc = []
      · have h0 : (tokAux cs []).filterMap stripNE =
            tokAux (cs.filter keepChar) [] := by
          simpa using (ih []).symm
        simp [hacc, h0]
      · rw [if_neg hacc]
        by_cases hfa : acc.filter isWordChar = []
        · have hs : stripNE acc.reverse = none := by
            simp [stripNE, stripTok, List.filter_reverse, hfa]
          have h0 : (tokAux cs []).filterMap stripNE =
              tokAux (cs.filter keepChar) [] := by
            simpa using (ih []).symm
          simp [hfa, hs, h0]
        · have hs : stripNE acc.reverse = some ((acc.filter isWordChar).reverse) := by
            simp [stripNE, stripTok, List.filter_reverse, hfa]
          have h0 : (tokAux cs []).filterMap stripNE =
              tokAux (cs.filter keepChar) [] := by
            simpa using (ih []).symm
          rw [if_neg hfa]
          simp [hs, h0]
    · by_cases hwd : isWordChar c
      · rw [List.filter_cons_of_pos (keep_of_word hwd)]
        have hlhs : tokAux (c :: cs.filter keepChar) (acc.filter isWordChar) =
            tokAux (cs.filter keepChar) ((c :: acc).filter isWordChar) := by
          simp [tokAux, hw, List.filter_cons_of_pos hwd]
        rw [hlhs, ih (c :: acc)]
        simp [tokAux, hw]
      · have hk : keepChar c = false := by simp [keepChar, hwd, hw]
        rw [List.filter_cons_of_neg (by simp [hk])]
        have hfe : (c :: acc).filter isWordChar = acc.filter isWordChar := by
          simp [List.filter_cons_of_neg, hwd]
        have := ih (c :: acc)
        rw [hfe] at this
        rw [this]
        simp [tokAux, hw]

theorem tokens_filter_keep (l : Str) :
    tokens (l.filter keepChar) = (tokens l).filterMap stripNE := by
  simpa [tokens] using tokAux_filter l []

/-- Every whitespace-delimited token is non-empty and whitespace-free. -/
theorem tokAux_wf (l : Str) : ∀ acc : Str, (∀ c ∈ acc, c.isWhitespace = false) →
    ∀ t ∈ tokAux l acc, t ≠ [] ∧ ∀ c ∈ t, c.isWhitespace = false := by
  induction l with
  | nil =>
    intro acc hacc t ht
    simp only [tokAux] at ht
    by_cases hacc0 : acc = []
    · simp [hacc0] at ht
    · rw [if_neg hacc0] at ht
      simp only [List.mem_singleton] at ht
      subst ht
      refine ⟨by simpa using hacc0, ?_⟩
      intro c hc
      exact hacc c (List.mem_reverse.mp hc)
  | cons c cs ih =>
    intro acc hacc t ht
    by_cases hw : c.isWhitespace
    · simp only [tokAux, hw, if_pos] at ht
      by_cases hacc0 : acc = []
      · rw [if_pos hacc0] at ht
        exact ih [] (by simp) t ht
      · rw [if_neg hacc0] at ht
        rcases List.mem_cons.mp ht with h1 | h1
        · subst h1
          refine ⟨by simpa using hacc0, ?_⟩
          intro d hd
          exact hacc d (List.mem_reverse.mp hd)
        · exact ih [] (by simp) t h1
    · simp only [tokAux, hw, if_neg, Bool.false_eq_true, not_false_iff] at ht
      refine ih (c :: acc) ?_ t ht
      intro d hd
      rcases List.mem_cons.mp hd with h1 | h1
      · subst h1
        simpa using hw
      · exact hacc d h1

theorem tokens_wf {l : Str} {t : Str} (ht : t ∈ tokens l) :
    t ≠ [] ∧ ∀ c ∈ t, c.isWhitespace = false :=
  tokAux_wf l [] (by simp) t ht

/-- Consuming a whitespace-free chunk just extends the accumulator. -/
theorem tokAux_append (t : Str) (h : ∀ c ∈ t, c.isWhitespace = false) :
    ∀ l acc, tokAux (t ++ l) acc = tokAux l (t.reverse ++ acc) := by
  induction t with
  | nil => intro l acc; simp
  | cons c t ih =>
    intro l acc
    have hc : c.isWhitespace = false := h c (by simp)
    have ht : ∀ d ∈ t, d.isWhitespace = false := fun d hd => h d (by simp [hd])
    simp only [List.cons_append, tokAux, hc, Bool.false_eq_true, if_false,
      if_neg]
    rw [show t.append l = t ++ l from rfl, ih ht l (c :: acc)]
    simp

theorem tokens_single {t : Str} (h0 : t ≠ [])
    (h : ∀ c ∈ t, c.isWhitespace = false) : tokens t = [t] := by
  have := tokAux_append t h [] []
  simp only [List.append_nil] at this
  rw [tokens, this]
  simp [tokAux, h0]

/-- Tokenizing a space-joined list of well-formed tokens recovers the list. -/
theorem tokens_join (ts : List Str)
    (h : ∀ t ∈ ts, t ≠ [] ∧ ∀ c ∈ t, c.isWhitespace = false) :
    tokens (joinSpaces ts) = ts := by
  induction ts with
  | nil => simp [joinSpaces, tokens, tokAux]
  | cons t ts ih =>
    cases ts with
    | nil =>
      have ht := h t (by simp)
      simpa [joinSpaces] using tokens_single ht.1 ht.2
    | cons t' ts' =>
      have ht := h t (by simp)
      have hrest : ∀ u ∈ t' :: ts', u ≠ [] ∧ ∀ c ∈ u, c.isWhitespace = false :=
        fun u hu => h u (by simp [hu])
      have hjoin : joinSpaces (t :: t' :: ts') =
          t ++ ' ' :: joinSpaces (t' :: ts') := rfl
      rw [hjoin, tokens, tokAux_append t ht.2]
      simp only [List.append_nil, tokAux]
      rw [if_pos (by decide), if_neg (by simpa using ht.1)]
      rw [List.reverse_reverse]
      exact congrArg (t :: ·) (ih hrest)

/-!
Embedding of main.py: text cleaning, the keyword-based Section Locator,
the NER-based fallback, process_image and process_folder.
-/

/-- The Python substring test (the in operator on strings): the needle is a
prefix of some suffix of the haystack. -/
def hasSubstr (needle : Str) : Str → Bool
  | [] => needle.isEmpty
  | c :: rest => needle.isPrefixOf (c :: rest) || hasSubstr needle rest

/-- Python str.strip: drop whitespace from both ends. -/
def pyStrip (s : Str) : Str :=
  ((s.dropWhile Char.isWhitespace).reverse.dropWhile Char.isWhitespace).reverse

/-- First substitution of clean_text: collapse every whitespace run to a
single space. -/
def collapseWs : Str → Str
  | [] => []
  | [c] => if c.isWhitespace then [' '] else [c]
  | c :: d :: rest =>
    if c.isWhitespace then
      (if d.isWhitespace then collapseWs (d :: rest)
       else ' ' :: collapseWs (d :: rest))
    else c :: collapseWs (d :: rest)

/-- Second substitution of clean_text: every character that is neither a
word character nor whitespace becomes a space. -/
def punctToSpace (s : Str) : Str :=
  s.map (fun c => if keepChar c then c else ' ')

/-- Third substitution of clean_text: a lone letter i (case-insensitive,
surrounded by word boundaries) becomes a space.  The flag records whether
the previous character was a word character. -/
def dropLoneIAux (prevWord : Bool) : Str → Str
  | [] => []
  | c :: rest =>
    if ((c == 'i' || c == 'I') && !prevWord &&
        (match rest with | [] => true | d :: _ => !isWordChar d)) then
      ' ' :: dropLoneIAux false rest
    else c :: dropLoneIAux (isWordChar c) rest

def dropLoneI (s : Str) : Str := dropLoneIAux false s

/-- clean_text from main.py: collapse whitespace, replace punctuation by
spaces, drop standalone i, strip. -/
def clean_text (t : Str) : Str :=
  pyStrip (dropLoneI (punctToSpace (collapseWs t)))

/-- The target keyword set of extract_diagnosis_keyword_based. -/
def target_keywords_set : List Str :=
  [ "provisional diagnosis".toList, "diagnosis".toList, "dx".toList,
    "clinical impression".toList, "diagnostic impression".toList,
    "suspected condition".toList, "differential diagnosis".toList,
    "impression".toList, "initial diagnosis".toList,
    "medical assessment".toList, "discharge diagnosis".toList,
    "primary diagnosis".toList, "secondary diagnosis".toList ]

/-- The per-page line scan of extract_diagnosis_keyword_based.  The break
statement of the source exits only this inner loop, so a capture ends the
current page but both the capture flag and the captured text survive into
the next page. -/
def extractKeywordPage (capture : Bool) (diag : Option Str) :
    List Str → Bool × Option Str
  | [] => (capture, diag)
  | line :: rest =>
    let text := lower (pyStrip line)
    if target_keywords_set.any (fun kw => hasSubstr kw text) then
      extractKeywordPage true diag rest
    else if capture then
      (capture, some (clean_text line))
    else
      extractKeywordPage capture diag rest

/-- extract_diagnosis_keyword_based from main.py over the ordered pages of
ordered lines; an empty captured string is falsy in the final return and
becomes None. -/
def extract_diagnosis_keyword_based (pages : List (List Str)) : Option Str :=
  let st := pages.foldl (fun (st : Bool × Option Str) page =>
    extractKeywordPage st.1 st.2 page) (false, none)
  match st.2 with
  | some t => if t = [] then none else some t
  | none => none

/-- Code bug behind claim C1: the spec (single-diagnosis assumption) says the
traversal stops as soon as one non-empty fragment is captured, so that lines
on later pages never overwrite it.  The break in the source only exits the
inner per-page loop and the capture flag is never reset, so on the two-page
document below the captured fragment Flu is overwritten by the first line of
the next page and the function returns Cold. -/
theorem c1_keyword_capture_crosses_pages :
    extract_diagnosis_keyword_based
        [[ "Diagnosis:".toList, "Flu".toList ], [ "Cold".toList ]] =
      some "Cold".toList ∧
    some "Cold".toList ≠ some "Flu".toList := by
  constructor
  · decide
  · decide

/-- Counterexample to claim C2: on the lines of Scenario C the Section
Locator returns the candidate with its original casing, Acute Appendicitis,
not the lowercased acute appendicitis the claim states. -/
theorem c2_counterexample :
    extract_diagnosis_keyword_based
        [[ "Provisional Diagnosis:".toList, "Acute Appendicitis".toList,
           "Treatment: surgery".toList ]] =
      some "Acute Appendicitis".toList ∧
    some "Acute Appendicitis".toList ≠ some "acute appendicitis".toList := by
  constructor
  · decide
  · decide

/-- Claim C2 amended: the locator has no boundary-keyword handling at all.
On the Scenario C lines it returns Acute Appendicitis (original casing kept
by clean_text) because capture stops the page scan before the Treatment line
is examined; and when a boundary-style line directly follows the keyword
line it is itself consumed as diagnosis text (with the colon replaced by a
space), rather than ending the section unconsumed. -/
theorem c2_boundary_keywords_amended :
    extract_diagnosis_keyword_based
        [[ "Provisional Diagnosis:".toList, "Acute Appendicitis".toList,
           "Treatment: surgery".toList ]] =
      some "Acute Appendicitis".toList ∧
    extract_diagnosis_keyword_based
        [[ "Provisional Diagnosis:".toList, "Treatment: surgery".toList ]] =
      some "Treatment  surgery".toList := by
  constructor
  · decide
  · decide

/-- Joining entity texts with a comma and a space (the join in
extract_diagnosis_ner_based). -/
def joinCommaSpace : List Str → Str
  | [] => []
  | [t] => t
  | t :: ts => t ++ ',' :: ' ' :: joinCommaSpace ts

def noProvisionalFound : Str := "No Provisional Diagnosis Found".toList

/-- extract_diagnosis_ner_based from main.py, with the GLiNER call modelled
as a deterministic oracle from cleaned text to (label, text) entity pairs. -/
def extract_diagnosis_ner_based (ner : Str → List (Str × Str))
    (ocrText : Str) : Str :=
  let cleaned := clean_text ocrText
  let diagnoses := (ner cleaned).filterMap fun e =>
    if e.1 = "Diagnosis".toList ∨ e.1 = "Condition".toList then some e.2
    else none
  if diagnoses = [] then noProvisionalFound
  else pyStrip (joinCommaSpace diagnoses)

/-- extract_all_text_from_layout from main.py. -/
def extract_all_text_from_layout (pages : List (List Str)) : Str :=
  joinSpaces (pages.flatten.map pyStrip)

/-- The external collaborators one image depends on: the layout service
(none models the Azure call raising), the entity-extraction oracle, and the
Tesseract OCR fallback (none models a raise inside the fallback path). -/
structure Services where
  layout : Option (List (List Str))
  ner : Str → List (Str × Str)
  tesseract : Option Str

/-- Result of processing one image, instrumented with the number of
NER-extraction invocations and whether the Tesseract fallback ran. -/
structure ProcResult where
  row : Str × Str
  nerCalls : Nat
  usedOcrFallback : Bool
deriving DecidableEq

/-- process_image from main.py.  The keyword pass runs first; when it finds
nothing the NER pass runs, and when that yields the sentinel or re-contains
the label phrase, the layout extraction and the NER pass are re-run once.
An exception from the layout service falls back to Tesseract plus NER; none
models the whole call raising (both the layout call and the fallback
failed). -/
def process_image (s : Services) (name : Str) : Option ProcResult :=
  match s.layout with
  | some pages =>
    match extract_diagnosis_keyword_based pages with
    | some d => some ⟨(name, d), 0, false⟩
    | none =>
      let ocrText := extract_all_text_from_layout pages
      let d1 := extract_diagnosis_ner_based s.ner ocrText
      if d1 = noProvisionalFound ∨
          hasSubstr "Provisional Diagnosis".toList d1 = true then
        let d2 := extract_diagnosis_ner_based s.ner
          (extract_all_text_from_layout pages)
        some ⟨(name, d2), 2, false⟩
      else some ⟨(name, d1), 1, false⟩
  | none =>
    match s.tesseract with
    | some t => some ⟨(name, extract_diagnosis_ner_based s.ner t), 1, true⟩
    | none => none

/-- process_folder from main.py: one worker per file; a worker whose future
raises is logged and contributes nothing to the collected results. -/
def process_folder (files : List (Str × Services)) : List (Str × Str) :=
  files.foldl (fun acc f =>
    match process_image f.2 f.1 with
    | some r => acc ++ [r.row]
    | none => acc) []

/-- Counterexample to claim C4: on a document with no keyword match whose
NER pass finds no entities, the code re-runs the NER extraction a second
time (the sentinel retry), so two NER calls happen while the OCR fallback
is never considered at all. -/
theorem c4_counterexample :
    process_image
        ⟨some [[ "hello".toList ]], fun _ => [], none⟩ "a".toList =
      some ⟨("a".toList, noProvisionalFound), 2, false⟩ ∧ (2 : Nat) ≠ 1 := by
  constructor
  · decide
  · decide

/-- Claim C4 amended: when the layout call succeeds and no line matches a
target keyword, the Section Locator yields nothing and process_image runs
the NER extraction once, and exactly one more time when the first result is
the sentinel or still contains the label phrase Provisional Diagnosis; the
Tesseract OCR fallback is never engaged on this path (it only runs when the
layout service raises). -/
theorem c4_ner_retry_amended (s : Services) (name : Str)
    (pages : List (List Str)) (hl : s.layout = some pages)
    (hk : extract_diagnosis_keyword_based pages = none) :
    ∃ r, process_image s name = some r ∧ r.usedOcrFallback = false ∧
      r.nerCalls =
        (if extract_diagnosis_ner_based s.ner
              (extract_all_text_from_layout pages) = noProvisionalFound ∨
            hasSubstr "Provisional Diagnosis".toList
              (extract_diagnosis_ner_based s.ner
                (extract_all_text_from_layout pages)) = true
         then 2 else 1) := by
  simp only [process_image.eq_def, hl, hk]
  by_cases hbad : extract_diagnosis_ner_based s.ner
        (extract_all_text_from_layout pages) = noProvisionalFound ∨
      hasSubstr "Provisional Diagnosis".toList
        (extract_diagnosis_ner_based s.ner
          (extract_all_text_from_layout pages)) = true
  · exact ⟨⟨(name, extract_diagnosis_ner_based s.ner
        (extract_all_text_from_layout pages)), 2, false⟩,
      by simp only [if_pos hbad], rfl, by simp only [if_pos hbad]⟩
  · exact ⟨⟨(name, extract_diagnosis_ner_based s.ner
        (extract_all_text_from_layout pages)), 1, false⟩,
      by simp only [if_neg hbad], rfl, by simp only [if_neg hbad]⟩

/-- Witness for the amended claim C4 at a concrete no-keyword document. -/
theorem c4_witness :
    ∃ r, process_image
        ⟨some [[ "hello".toList ]], fun _ => [], none⟩ "a".toList =
        some r ∧ r.usedOcrFallback = false ∧
      r.nerCalls =
        (if extract_diagnosis_ner_based (fun _ => [])
              (extract_all_text_from_layout [[ "hello".toList ]]) =
              noProvisionalFound ∨
            hasSubstr "Provisional Diagnosis".toList
              (extract_diagnosis_ner_based (fun _ => [])
                (extract_all_text_from_layout [[ "hello".toList ]])) = true
         then 2 else 1) :=
  c4_ner_retry_amended ⟨some [[ "hello".toList ]], fun _ => [], none⟩
    "a".toList [[ "hello".toList ]] rfl (by decide)

theorem process_folder_foldl (files : List (Str × Services)) :
    ∀ acc : List (Str × Str),
      (files.foldl (fun acc f =>
        match process_image f.2 f.1 with
        | some r => acc ++ [r.row]
        | none => acc) acc).length =
      acc.length + files.countP (fun f => (process_image f.2 f.1).isSome) := by
  induction files with
  | nil => intro acc; simp
  | cons f fs ih =>
    intro acc
    rw [List.foldl_cons, List.countP_cons]
    cases hpi : process_image f.2 f.1 with
    | none =>
      simp only [hpi]
      rw [ih acc]
      simp [hpi]
    | some r =>
      simp only [hpi]
      rw [ih (acc ++ [r.row])]
      simp [hpi]
      omega

theorem ner_based_empty {s : Services} (hner : ∀ t, s.ner t = [])
    (x : Str) : extract_diagnosis_ner_based s.ner x = noProvisionalFound := by
  simp [extract_diagnosis_ner_based, hner]

/-- Counterexample to claim C9: a file whose layout call raises and whose
Tesseract fallback also raises makes process_image raise; process_folder
catches the exception and appends nothing, so the batch output has no row
for that input file at all, instead of a sentinel row. -/
theorem c9_counterexample :
    process_folder [("a.jpg".toList, ⟨none, fun _ => [], none⟩)] = [] ∧
    [("a.jpg".toList, (⟨none, fun _ => [], none⟩ : Services))].length = 1 := by
  constructor
  · decide
  · decide

/-- Claim C9 amended: the batch output has one row per input file whose
processing completes without raising; a file whose processing raises is
logged and dropped from the results (its row count contribution is zero),
and a document that processes successfully but where the entity extractor
finds nothing still gets a row carrying the sentinel diagnosis text. -/
theorem c9_one_row_amended :
    (∀ files : List (Str × Services),
      (process_folder files).length =
        files.countP (fun f => (process_image f.2 f.1).isSome)) ∧
    (∀ (s : Services) (name : Str) (pages : List (List Str)),
      s.layout = some pages →
      extract_diagnosis_keyword_based pages = none →
      (∀ t, s.ner t = []) →
      process_image s name = some ⟨(name, noProvisionalFound), 2, false⟩) := by
  constructor
  · intro files
    simpa using process_folder_foldl files []
  · intro s name pages hl hk hner
    simp only [process_image.eq_def, hl, hk]
    rw [if_pos (Or.inl (ner_based_empty hner _))]
    rw [ner_based_empty hner]

/-- Witness for the amended claim C9: a batch with one raising file and one
sentinel file, and the sentinel row for the second file. -/
theorem c9_witness :
    (process_folder
        [("a.jpg".toList, ⟨none, fun _ => [], none⟩),
         ("b.jpg".toList, ⟨some [[ "hello".toList ]], fun _ => [],
            some "x".toList⟩)]).length =
      ([("a.jpg".toList, (⟨none, fun _ => [], none⟩ : Services)),
        ("b.jpg".toList, ⟨some [[ "hello".toList ]], fun _ => [],
           some "x".toList⟩)]).countP
        (fun f => (process_image f.2 f.1).isSome) ∧
    process_image
        ⟨some [[ "hello".toList ]], fun _ => [], some "x".toList⟩
        "b.jpg".toList =
      some ⟨("b.jpg".toList, noProvisionalFound), 2, false⟩ :=
  ⟨c9_one_row_amended.1 _,
   c9_one_row_amended.2 _ _ [[ "hello".toList ]] rfl (by decide)
     (fun _ => rfl)⟩

/-!
Embedding of levl2.py: the Lexicon-Constrained Corrector.  The external
SpellChecker library is modelled as an oracle from a lowercased word to an
optional suggestion (None models no suggestion).
-/

namespace Levl2

/-- clean_and_tokenize from levl2.py: delete punctuation, then the word
tokens (which, after deletion, are exactly the whitespace runs). -/
def clean_and_tokenize (text : Str) : List Str :=
  tokens (text.filter keepChar)

/-- spell_check_strict from levl2.py: skip the spell check for lexicon
members (guarded by the truthiness test on the set), and fall back to the
original word when the suggestion is falsy. -/
def spell_check_strict (spell : Str → Option Str) (terms : List Str)
    (w : Str) : Str :=
  if terms ≠ [] ∧ lower w ∈ terms then w
  else
    match spell (lower w) with
    | some c => if c = [] then w else c
    | none => w

/-- The guard of the resynchronisation while loop: the punctuation-stripped
lowercased original token differs from the current cleaned token. -/
def notMatch (w o : Str) : Bool := decide (lower (stripTok o) ≠ lower w)

/-- The token-alignment walk of correct_text.  The cursor into the original
tokens is represented by the not-yet-consumed suffix; none models the
IndexError the source would raise when the cursor has run off the end and
the else branch indexes original_words. -/
def correctLoop (spell : Str → Option Str) (terms : List Str) :
    List Str → List Str → Option (List Str × Bool)
  | [], origs => some (origs, false)
  | w :: ws, origs =>
    match origs.dropWhile (notMatch w) with
    | [] =>
      if lower (spell_check_strict spell terms w) ≠ lower w then
        (correctLoop spell terms ws []).map fun r =>
          (origs.takeWhile (notMatch w) ++
            spell_check_strict spell terms w :: r.1, true)
      else none
    | o :: rest =>
      if lower (spell_check_strict spell terms w) ≠ lower w then
        (correctLoop spell terms ws rest).map fun r =>
          (origs.takeWhile (notMatch w) ++
            spell_check_strict spell terms w :: r.1, true)
      else
        (correctLoop spell terms ws rest).map fun r =>
          (origs.takeWhile (notMatch w) ++ o :: r.1, r.2)

/-- correct_text from levl2.py: walk the cleaned tokens against the
whitespace-delimited original tokens and join the output with single
spaces; none models an uncaught IndexError. -/
def correct_text (spell : Str → Option Str) (terms : List Str)
    (text : Str) : Option (Str × Bool) :=
  (correctLoop spell terms (clean_and_tokenize text) (tokens text)).map
    fun r => (joinSpaces r.1, r.2)

end Levl2

/-- Counterexample to claim C3: a token whose cleaned lowercase form is in
the lexicon is emitted with its original casing, not lowercased; on input
Hypertension with lexicon member hypertension the output keeps the capital
H, against the stated output hypertension. -/
theorem c3_counterexample :
    Levl2.correct_text (fun _ => none) ["hypertension".toList]
        "Hypertension".toList =
      some ("Hypertension".toList, false) ∧
    "Hypertension".toList ≠ "hypertension".toList := by
  constructor
  · decide
  · decide

/-- Counterexample to claim C6: with a suggestion oracle that is not
idempotent (ab corrects to ac, and ac itself corrects to ad) the second
pass over the corrected output changes it again and reports corrections,
so the Corrector is not idempotent for every oracle. -/
theorem c6_counterexample :
    Levl2.correct_text
        (fun w => if w = "ab".toList then some "ac".toList
          else if w = "ac".toList then some "ad".toList else none)
        [] "ab".toList = some ("ac".toList, true) ∧
    Levl2.correct_text
        (fun w => if w = "ab".toList then some "ac".toList
          else if w = "ac".toList then some "ad".toList else none)
        [] "ac".toList = some ("ad".toList, true) ∧
    (some ("ad".toList, true) : Option (Str × Bool)) ≠
      some ("ac".toList, false) := by
  refine ⟨?_, ?_, ?_⟩
  · decide
  · decide
  · decide

theorem stripNE_some {t w : Str} (h : stripNE t = some w) :
    stripTok t = w ∧ w ≠ [] := by
  unfold stripNE at h
  by_cases h0 : stripTok t = []
  · rw [if_pos h0] at h
    exact absurd h (by simp)
  · rw [if_neg h0] at h
    obtain rfl := Option.some.inj h
    exact ⟨rfl, h0⟩

theorem stripNE_none {t : Str} : stripNE t = none ↔ stripTok t = [] := by
  unfold stripNE
  by_cases h0 : stripTok t = []
  · simp [h0]
  · simp [h0]

/-- Decomposing a list along the first element its filterMap keeps. -/
theorem filterMap_cons_split {α β : Type} (f : α → Option β) :
    ∀ (l : List α) (w : β) (ws : List β), l.filterMap f = w :: ws →
      ∃ p o r, l = p ++ o :: r ∧ (∀ x ∈ p, f x = none) ∧
        f o = some w ∧ r.filterMap f = ws := by
  intro l
  induction l with
  | nil => intro w ws h; simp at h
  | cons a l ih =>
    intro w ws h
    cases hf : f a with
    | none =>
      rw [List.filterMap_cons_none hf] at h
      obtain ⟨p, o, r, hl, hp, ho, hr⟩ := ih w ws h
      refine ⟨a :: p, o, r, by simp [hl], ?_, ho, hr⟩
      intro x hx
      rcases List.mem_cons.mp hx with h1 | h1
      · subst h1; exact hf
      · exact hp x h1
    | some b =>
      rw [List.filterMap_cons_some hf] at h
      obtain ⟨h1, h2⟩ := List.cons.inj h
      exact ⟨[], a, l, rfl, by simp, by rw [hf, h1], h2⟩

/-- takeWhile and dropWhile around the first failing element. -/
theorem takeWhile_middle {α : Type} (q : α → Bool) (p : List α) (o : α)
    (r : List α) (hp : ∀ x ∈ p, q x = true) (ho : q o = false) :
    (p ++ o :: r).takeWhile q = p ∧ (p ++ o :: r).dropWhile q = o :: r := by
  induction p with
  | nil => simp [List.dropWhile_cons, ho]
  | cons a p ih =>
    have ha : q a = true := hp a (by simp)
    have hrec := ih (fun x hx => hp x (by simp [hx]))
    constructor
    · rw [List.cons_append, List.takeWhile_cons_of_pos ha, hrec.1]
    · rw [List.cons_append, List.dropWhile_cons_of_pos ha, hrec.2]

namespace Levl2

/-- A word the walk rewrites comes out of the suggestion oracle and is a
non-empty suggestion. -/
theorem scs_correction {spell : Str → Option Str} {terms : List Str}
    {w : Str}
    (h : lower (spell_check_strict spell terms w) ≠ lower w) :
    ∃ x c, spell x = some c ∧ c ≠ [] ∧
      spell_check_strict spell terms w = c := by
  by_cases hmem : terms ≠ [] ∧ lower w ∈ terms
  · rw [spell_check_strict, if_pos hmem] at h
    exact absurd rfl h
  · rw [spell_check_strict, if_neg hmem] at h
    cases hsp : spell (lower w) with
    | none =>
      simp only [hsp] at h
      exact absurd rfl h
    | some c =>
      simp only [hsp] at h
      by_cases hc : c = []
      · rw [if_pos hc] at h
        exact absurd rfl h
      · refine ⟨lower w, c, hsp, hc, ?_⟩
        simp only [spell_check_strict, if_neg hmem, hsp, if_neg hc]

/-- Structure of the alignment walk on aligned inputs: when the cleaned
tokens are exactly the non-empty punctuation-stripped forms of the original
tokens (which clean_and_tokenize guarantees), the walk never reaches the
out-of-bounds read, the output has one token per original token, and every
output token is a punctuation-only original token, an original token whose
stripped form the spell step leaves alone (case-insensitively), or a
non-empty suggestion of the oracle. -/
theorem correctLoop_aligned (spell : Str → Option Str) (terms : List Str) :
    ∀ (n : Nat) (origs : List Str), (origs.filterMap stripNE).length = n →
      ∃ out flag,
        correctLoop spell terms (origs.filterMap stripNE) origs =
          some (out, flag) ∧
        out.length = origs.length ∧
        ∀ t ∈ out,
          (t ∈ origs ∧ stripTok t = []) ∨
          (t ∈ origs ∧
            lower (spell_check_strict spell terms (stripTok t)) =
              lower (stripTok t)) ∨
          (∃ x c, spell x = some c ∧ c ≠ [] ∧ t = c) := by
  intro n
  induction n with
  | zero =>
    intro origs h0
    have hnil : origs.filterMap stripNE = [] := List.length_eq_zero.mp h0
    rw [hnil]
    refine ⟨origs, false, rfl, rfl, ?_⟩
    intro t ht
    exact Or.inl ⟨ht, stripNE_none.mp (List.filterMap_eq_nil_iff.mp hnil t ht)⟩
  | succ n ih =>
    intro origs hlen
    cases hfm : origs.filterMap stripNE with
    | nil => rw [hfm] at hlen; simp at hlen
    | cons w ws =>
      obtain ⟨p, o, r, horigs, hp, ho, hr⟩ :=
        filterMap_cons_split stripNE origs w ws hfm
      obtain ⟨hso, hwne⟩ := stripNE_some ho
      have hq : ∀ x ∈ p, notMatch w x = true := by
        intro x hx
        have hx0 : stripTok x = [] := stripNE_none.mp (hp x hx)
        simp only [notMatch, hx0, decide_eq_true_eq]
        show lower [] ≠ lower w
        intro hcon
        exact hwne (lower_eq_nil.mp hcon.symm)
      have hqo : notMatch w o = false := by
        simp [notMatch, hso]
      have htd := takeWhile_middle (notMatch w) p o r hq hqo
      have htake : origs.takeWhile (notMatch w) = p := by
        rw [horigs]; exact htd.1
      have hdrop : origs.dropWhile (notMatch w) = o :: r := by
        rw [horigs]; exact htd.2
      have hlen' : (r.filterMap stripNE).length = n := by
        rw [hr]
        rw [hfm] at hlen
        simpa using hlen
      obtain ⟨out', flag', hloop', hlenr, hmem'⟩ := ih r hlen'
      rw [hr] at hloop'
      have upgrade : ∀ t ∈ r, t ∈ origs := by
        intro t h3
        rw [horigs]
        exact List.mem_append_right _ (List.mem_cons_of_mem _ h3)
      have hpre : ∀ t ∈ p, t ∈ origs ∧ stripTok t = [] := by
        intro t h1
        refine ⟨?_, stripNE_none.mp (hp t h1)⟩
        rw [horigs]
        exact List.mem_append_left _ h1
      by_cases hcw : lower (spell_check_strict spell terms w) ≠ lower w
      · refine ⟨p ++ spell_check_strict spell terms w :: out', true, ?_, ?_, ?_⟩
        · simp only [correctLoop, hdrop]
          rw [if_pos hcw, hloop', htake]
          rfl
        · rw [horigs]
          simp [hlenr]
        · intro t ht
          rcases List.mem_append.mp ht with h1 | h1
          · exact Or.inl (hpre t h1)
          · rcases List.mem_cons.mp h1 with h2 | h2
            · obtain ⟨x, c, hx, hc, hcweq⟩ := scs_correction hcw
              exact Or.inr (Or.inr ⟨x, c, hx, hc, by rw [h2, hcweq]⟩)
            · rcases hmem' t h2 with h3 | h3 | h3
              · exact Or.inl ⟨upgrade t h3.1, h3.2⟩
              · exact Or.inr (Or.inl ⟨upgrade t h3.1, h3.2⟩)
              · exact Or.inr (Or.inr h3)
      · have hcweq : lower (spell_check_strict spell terms w) = lower w :=
          not_not.mp hcw
        refine ⟨p ++ o :: out', flag', ?_, ?_, ?_⟩
        · simp only [correctLoop, hdrop]
          rw [if_neg hcw, hloop', htake]
          rfl
        · rw [horigs]
          simp [hlenr]
        · intro t ht
          rcases List.mem_append.mp ht with h1 | h1
          · exact Or.inl (hpre t h1)
          · rcases List.mem_cons.mp h1 with h2 | h2
            · subst h2
              refine Or.inr (Or.inl ⟨?_, ?_⟩)
              · rw [horigs]
                exact List.mem_append_right _ (List.mem_cons_self _ _)
              · rw [hso]
                exact hcweq
            · rcases hmem' t h2 with h3 | h3 | h3
              · exact Or.inl ⟨upgrade t h3.1, h3.2⟩
              · exact Or.inr (Or.inl ⟨upgrade t h3.1, h3.2⟩)
              · exact Or.inr (Or.inr h3)

end Levl2

/-- Claim C5: for every input text, lexicon and suggestion oracle, the
token-alignment walk of correct_text never raises: the cursor never reads
past the end of the original token list, because every cleaned token is the
punctuation-stripped form of some not-yet-consumed original token. -/
theorem c5_corrector_never_raises (spell : Str → Option Str)
    (terms : List Str) (text : Str) :
    (Levl2.correct_text spell terms text).isSome := by
  unfold Levl2.correct_text
  have hclean : Levl2.clean_and_tokenize text =
      (tokens text).filterMap stripNE := tokens_filter_keep text
  rw [hclean]
  obtain ⟨out, flag, hloop, -, -⟩ :=
    Levl2.correctLoop_aligned spell terms
      ((tokens text).filterMap stripNE).length (tokens text) rfl
  rw [hloop]
  rfl

namespace Levl2

/-- When the walk reports no corrections, every branch taken was the
emit-the-original branch, so the output token list is exactly the original
token list. -/
theorem correctLoop_false (spell : Str → Option Str) (terms : List Str) :
    ∀ (ws origs out : List Str),
      correctLoop spell terms ws origs = some (out, false) → out = origs := by
  intro ws
  induction ws with
  | nil =>
    intro origs out h
    simp only [correctLoop, Option.some.injEq, Prod.mk.injEq] at h
    exact h.1.symm
  | cons w ws ih =>
    intro origs out h
    simp only [correctLoop] at h
    cases hdrop : origs.dropWhile (notMatch w) with
    | nil =>
      simp only [hdrop] at h
      by_cases hcw : lower (spell_check_strict spell terms w) ≠ lower w
      · rw [if_pos hcw] at h
        rcases Option.map_eq_some'.mp h with ⟨r, -, hr2⟩
        exact absurd (congrArg Prod.snd hr2) (by simp)
      · rw [if_neg hcw] at h
        exact absurd h (by simp)
    | cons o rest =>
      simp only [hdrop] at h
      by_cases hcw : lower (spell_check_strict spell terms w) ≠ lower w
      · rw [if_pos hcw] at h
        rcases Option.map_eq_some'.mp h with ⟨r, -, hr2⟩
        exact absurd (congrArg Prod.snd hr2) (by simp)
      · rw [if_neg hcw] at h
        rcases Option.map_eq_some'.mp h with ⟨⟨r1, r2⟩, hr1, hr2⟩
        simp only [Prod.mk.injEq] at hr2
        obtain ⟨hout, hflag⟩ := hr2
        subst hflag
        have hr1' : r1 = rest := ih rest r1 hr1
        subst hr1'
        rw [← hout]
        have := List.takeWhile_append_dropWhile (p := notMatch w) (l := origs)
        rw [hdrop] at this
        exact this

end Levl2

/-- Claim C10: whenever correct_text reports has_corrections false, the
output string is exactly the whitespace-delimited tokens of the input joined
by single spaces, so the output differs from the input at most in
whitespace normalisation. -/
theorem c10_no_corrections_frame (spell : Str → Option Str)
    (terms : List Str) (text s : Str)
    (h : Levl2.correct_text spell terms text = some (s, false)) :
    s = joinSpaces (tokens text) := by
  unfold Levl2.correct_text at h
  rcases Option.map_eq_some'.mp h with ⟨⟨out, flag⟩, hloop, heq⟩
  simp only [Prod.mk.injEq] at heq
  obtain ⟨hs, hflag⟩ := heq
  subst hflag
  have hfr := Levl2.correctLoop_false spell terms _ _ _ hloop
  rw [← hs, hfr]

/-- Witness for claim C10 at a concrete two-token input. -/
theorem c10_witness :
    Levl2.correct_text (fun _ => none) [] "a b".toList =
      some ("a b".toList, false) ∧
    "a b".toList = joinSpaces (tokens "a b".toList) :=
  ⟨by decide,
   c10_no_corrections_frame (fun _ => none) [] "a b".toList "a b".toList
     (by decide)⟩

namespace Levl2

/-- The interface contract of the spell-check collaborator as the spec
states it: a suggestion is a single word, so it never contains
whitespace. -/
def TokenSafe (spell : Str → Option Str) : Prop :=
  ∀ x c, spell x = some c → ∀ ch ∈ c, ch.isWhitespace = false

end Levl2

/-- Claim C7: for every input (no cleaned token can fail to find a matching
original token, so the stated proviso is vacuous), the number of
whitespace-delimited tokens of the corrected output equals the number of
whitespace-delimited tokens of the input, given the spec-stated collaborator
contract that spell suggestions are single words. -/
theorem c7_token_count_invariant (spell : Str → Option Str)
    (terms : List Str) (text : Str) (hsafe : Levl2.TokenSafe spell) :
    ∃ s b, Levl2.correct_text spell terms text = some (s, b) ∧
      (tokens s).length = (tokens text).length := by
  obtain ⟨out, flag, hloop, hlen, hmem⟩ :=
    Levl2.correctLoop_aligned spell terms
      ((tokens text).filterMap stripNE).length (tokens text) rfl
  have hwf : ∀ t ∈ out, t ≠ [] ∧ ∀ c ∈ t, c.isWhitespace = false := by
    intro t ht
    rcases hmem t ht with h3 | h3 | h3
    · exact tokens_wf h3.1
    · exact tokens_wf h3.1
    · obtain ⟨x, c, hx, hc, hteq⟩ := h3
      subst hteq
      exact ⟨hc, hsafe x _ hx⟩
  refine ⟨joinSpaces out, flag, ?_, ?_⟩
  · unfold Levl2.correct_text
    rw [show Levl2.clean_and_tokenize text =
      (tokens text).filterMap stripNE from tokens_filter_keep text, hloop]
    rfl
  · rw [tokens_join out hwf, hlen]

/-- Witness for claim C7 at a punctuated concrete input with the trivial
no-suggestion oracle. -/
theorem c7_witness :
    ∃ s b, Levl2.correct_text (fun _ => none) [] "ab, cd!".toList =
      some (s, b) ∧
      (tokens s).length = (tokens "ab, cd!".toList).length :=
  c7_token_count_invariant (fun _ => none) [] "ab, cd!".toList
    (fun _ _ h => nomatch h)

namespace Levl2

/-- On aligned inputs whose original tokens are all stable (punctuation-only,
or left alone case-insensitively by the spell step), the walk copies every
original token and reports no corrections. -/
theorem correctLoop_stable (spell : Str → Option Str) (terms : List Str) :
    ∀ (n : Nat) (origs : List Str), (origs.filterMap stripNE).length = n →
      (∀ t ∈ origs, stripTok t = [] ∨
        lower (spell_check_strict spell terms (stripTok t)) =
          lower (stripTok t)) →
      correctLoop spell terms (origs.filterMap stripNE) origs =
        some (origs, false) := by
  intro n
  induction n with
  | zero =>
    intro origs h0 _
    rw [List.length_eq_zero.mp h0]
    rfl
  | succ n ih =>
    intro origs hlen hstable
    cases hfm : origs.filterMap stripNE with
    | nil => rw [hfm] at hlen; simp at hlen
    | cons w ws =>
      obtain ⟨p, o, r, horigs, hp, ho, hr⟩ :=
        filterMap_cons_split stripNE origs w ws hfm
      obtain ⟨hso, hwne⟩ := stripNE_some ho
      have hq : ∀ x ∈ p, notMatch w x = true := by
        intro x hx
        have hx0 : stripTok x = [] := stripNE_none.mp (hp x hx)
        simp only [notMatch, hx0, decide_eq_true_eq]
        show lower [] ≠ lower w
        intro hcon
        exact hwne (lower_eq_nil.mp hcon.symm)
      have hqo : notMatch w o = false := by
        simp [notMatch, hso]
      have htd := takeWhile_middle (notMatch w) p o r hq hqo
      have htake : origs.takeWhile (notMatch w) = p := by
        rw [horigs]; exact htd.1
      have hdrop : origs.dropWhile (notMatch w) = o :: r := by
        rw [horigs]; exact htd.2
      have hostable := hstable o (by
        rw [horigs]
        exact List.mem_append_right _ (List.mem_cons_self _ _))
      rcases hostable with h1 | h1
      · rw [hso] at h1
        exact absurd h1 hwne
      · rw [hso] at h1
        have hcw : ¬ lower (spell_check_strict spell terms w) ≠ lower w :=
          not_not_intro h1
        have hlen' : (r.filterMap stripNE).length = n := by
          rw [hr]
          rw [hfm] at hlen
          simpa using hlen
        have hrstable : ∀ t ∈ r, stripTok t = [] ∨
            lower (spell_check_strict spell terms (stripTok t)) =
              lower (stripTok t) := by
          intro t ht
          refine hstable t (by
            rw [horigs]
            exact List.mem_append_right _ (List.mem_cons_of_mem _ ht))
        have hrec := ih r hlen' hrstable
        rw [hr] at hrec
        simp only [correctLoop, hdrop]
        rw [if_neg hcw, hrec, htake]
        simp [horigs]

end Levl2

namespace Levl2

/-- Positional correspondence of the walk on aligned inputs: the output
pairs up with the original tokens one for one, and any original token whose
punctuation-stripped lowercase form is a lexicon member comes out verbatim
at its own position, because the spell step returns a lexicon member
unchanged and the walk then takes its emit-the-original branch. -/
theorem correctLoop_lexicon (spell : Str → Option Str) (terms : List Str) :
    ∀ (n : Nat) (origs : List Str), (origs.filterMap stripNE).length = n →
      ∃ out flag,
        correctLoop spell terms (origs.filterMap stripNE) origs =
          some (out, flag) ∧
        List.Forall₂ (fun o t => lower (stripTok o) ∈ terms → t = o)
          origs out := by
  intro n
  induction n with
  | zero =>
    intro origs h0
    rw [List.length_eq_zero.mp h0]
    refine ⟨origs, false, rfl, ?_⟩
    exact List.forall₂_same.mpr (fun x _ => fun _ => rfl)
  | succ n ih =>
    intro origs hlen
    cases hfm : origs.filterMap stripNE with
    | nil => rw [hfm] at hlen; simp at hlen
    | cons w ws =>
      obtain ⟨p, o, r, horigs, hp, ho, hr⟩ :=
        filterMap_cons_split stripNE origs w ws hfm
      obtain ⟨hso, hwne⟩ := stripNE_some ho
      have hq : ∀ x ∈ p, notMatch w x = true := by
        intro x hx
        have hx0 : stripTok x = [] := stripNE_none.mp (hp x hx)
        simp only [notMatch, hx0, decide_eq_true_eq]
        show lower [] ≠ lower w
        intro hcon
        exact hwne (lower_eq_nil.mp hcon.symm)
      have hqo : notMatch w o = false := by
        simp [notMatch, hso]
      have htd := takeWhile_middle (notMatch w) p o r hq hqo
      have htake : origs.takeWhile (notMatch w) = p := by
        rw [horigs]; exact htd.1
      have hdrop : origs.dropWhile (notMatch w) = o :: r := by
        rw [horigs]; exact htd.2
      have hlen' : (r.filterMap stripNE).length = n := by
        rw [hr]
        rw [hfm] at hlen
        simpa using hlen
      obtain ⟨out', flag', hloop', hfa'⟩ := ih r hlen'
      rw [hr] at hloop'
      have hpp : List.Forall₂ (fun o t => lower (stripTok o) ∈ terms → t = o)
          p p := List.forall₂_same.mpr (fun x _ => fun _ => rfl)
      by_cases hcw : lower (spell_check_strict spell terms w) ≠ lower w
      · refine ⟨p ++ spell_check_strict spell terms w :: out', true, ?_, ?_⟩
        · simp only [correctLoop, hdrop]
          rw [if_pos hcw, hloop', htake]
          rfl
        · rw [horigs]
          refine List.rel_append hpp (List.Forall₂.cons ?_ hfa')
          intro hmem
          exfalso
          rw [hso] at hmem
          have hterms : terms ≠ [] := List.ne_nil_of_mem hmem
          rw [spell_check_strict, if_pos ⟨hterms, hmem⟩] at hcw
          exact hcw rfl
      · refine ⟨p ++ o :: out', flag', ?_, ?_⟩
        · simp only [correctLoop, hdrop]
          rw [if_neg hcw, hloop', htake]
          rfl
        · rw [horigs]
          exact List.rel_append hpp (List.Forall₂.cons (fun _ => rfl) hfa')

end Levl2

/-- Claim C3 amended: for every input text, lexicon and oracle, the
Corrector pairs its output tokens one for one with the original
whitespace-delimited tokens, and at the position of every original token
whose punctuation-stripped lowercase form is a member of the lexicon it
emits that original token verbatim (original casing preserved, no
lowercasing), because spell_check_strict returns a lexicon member unchanged
and correct_text then appends the matched original token; in particular the
Scenario B input Hypertension with lexicon member hypertension yields
Hypertension with has_corrections false, for every oracle. -/
theorem c3_lexicon_token_amended :
    (∀ (spell : Str → Option Str) (terms : List Str) (text : Str),
      ∃ out b,
        Levl2.correct_text spell terms text = some (joinSpaces out, b) ∧
        List.Forall₂ (fun o t => lower (stripTok o) ∈ terms → t = o)
          (tokens text) out) ∧
    (∀ spell : Str → Option Str,
      Levl2.correct_text spell ["hypertension".toList]
        "Hypertension".toList = some ("Hypertension".toList, false)) := by
  constructor
  · intro spell terms text
    obtain ⟨out, flag, hloop, hfa⟩ :=
      Levl2.correctLoop_lexicon spell terms
        ((tokens text).filterMap stripNE).length (tokens text) rfl
    refine ⟨out, flag, ?_, hfa⟩
    unfold Levl2.correct_text
    rw [show Levl2.clean_and_tokenize text =
      (tokens text).filterMap stripNE from tokens_filter_keep text, hloop]
    rfl
  · intro spell
    rfl

/-- Witness for the amended claim C3 at the Scenario B input. -/
theorem c3_witness :
    Levl2.correct_text (fun _ => none) ["hypertension".toList]
      "Hypertension".toList = some ("Hypertension".toList, false) :=
  c3_lexicon_token_amended.2 (fun _ => none)

namespace Levl2

/-- The oracle property the idempotence of the Corrector actually needs:
every suggestion is a non-empty all-word-character string that the spell
step subsequently leaves alone (case-insensitively).  The real dictionary
library has this shape, because a suggestion is itself a dictionary word
and dictionary words correct to themselves, but the code alone does not
force it. -/
def GoodSpell (spell : Str → Option Str) (terms : List Str) : Prop :=
  ∀ x c, spell x = some c →
    c ≠ [] ∧ (∀ ch ∈ c, isWordChar ch = true) ∧
      lower (spell_check_strict spell terms c) = lower c

end Levl2

/-- Claim C6 amended: whenever every oracle suggestion is a non-empty
single word that the spell step leaves fixed (case-insensitively), the
Corrector is idempotent: a second pass over its own output returns the same
string with has_corrections false.  Without that oracle property the second
pass can change the text again (see the counterexample). -/
theorem c6_idempotent_amended (spell : Str → Option Str) (terms : List Str)
    (text s : Str) (b : Bool) (hgood : Levl2.GoodSpell spell terms)
    (h : Levl2.correct_text spell terms text = some (s, b)) :
    Levl2.correct_text spell terms s = some (s, false) := by
  obtain ⟨out, flag, hloop, hlen, hmem⟩ :=
    Levl2.correctLoop_aligned spell terms
      ((tokens text).filterMap stripNE).length (tokens text) rfl
  have hct : Levl2.correct_text spell terms text =
      some (joinSpaces out, flag) := by
    unfold Levl2.correct_text
    rw [show Levl2.clean_and_tokenize text =
      (tokens text).filterMap stripNE from tokens_filter_keep text, hloop]
    rfl
  rw [hct] at h
  obtain ⟨hs, -⟩ := Prod.mk.inj (Option.some.inj h)
  have hwf : ∀ t ∈ out, t ≠ [] ∧ ∀ c ∈ t, c.isWhitespace = false := by
    intro t ht
    rcases hmem t ht with h3 | h3 | h3
    · exact tokens_wf h3.1
    · exact tokens_wf h3.1
    · obtain ⟨x, c, hx, hc, hteq⟩ := h3
      subst hteq
      obtain ⟨-, hwchars, -⟩ := hgood x _ hx
      exact ⟨hc, fun ch hch => word_not_ws (hwchars ch hch)⟩
  have hstable : ∀ t ∈ out, stripTok t = [] ∨
      lower (Levl2.spell_check_strict spell terms (stripTok t)) =
        lower (stripTok t) := by
    intro t ht
    rcases hmem t ht with h3 | h3 | h3
    · exact Or.inl h3.2
    · exact Or.inr h3.2
    · obtain ⟨x, c, hx, hc, hteq⟩ := h3
      subst hteq
      obtain ⟨-, hwchars, hfix⟩ := hgood x _ hx
      have hstrip : stripTok t = t := List.filter_eq_self.mpr hwchars
      rw [hstrip]
      exact Or.inr hfix
  have htok : tokens s = out := by
    rw [← hs]
    exact tokens_join out hwf
  have hclean : Levl2.clean_and_tokenize s = out.filterMap stripNE := by
    unfold Levl2.clean_and_tokenize
    rw [tokens_filter_keep, htok]
  have hstab := Levl2.correctLoop_stable spell terms
    (out.filterMap stripNE).length out rfl hstable
  unfold Levl2.correct_text
  rw [hclean, htok, hstab]
  simp [hs]

/-- The concrete suggestion oracle used to witness the amended claim C6:
helo corrects to hello and nothing else gets a suggestion. -/
def spellHelo : Str → Option Str := fun w =>
  if w = "helo".toList then some "hello".toList else none

theorem spellHelo_good : Levl2.GoodSpell spellHelo [] := by
  intro x c h
  unfold spellHelo at h
  by_cases hx : x = "helo".toList
  · rw [if_pos hx] at h
    obtain rfl := Option.some.inj h
    refine ⟨by decide, by decide, by decide⟩
  · rw [if_neg hx] at h
    exact absurd h (by simp)

/-- Witness for the amended claim C6: the first pass corrects Helo world to
hello world, and the second pass applied via the theorem leaves that output
unchanged with has_corrections false. -/
theorem c6_witness :
    Levl2.correct_text spellHelo [] "hello world".toList =
      some ("hello world".toList, false) :=
  c6_idempotent_amended spellHelo [] "Helo world".toList
    "hello world".toList true spellHelo_good (by decide)

/-!
Embedding of icd10.py: the Code Resolver.  The loaded code lexicon is a
list of entries in stored (insertion) order; an entry carries the stored
dictionary key, the Level-3 code and the Level-3 description, the key being
the lowercased description as load_icd10_codes builds it.
-/

namespace Icd10

/-- clean_and_tokenize from icd10.py: delete punctuation, lowercase, then
split into word tokens. -/
def clean_and_tokenize (text : Str) : List Str :=
  tokens (lower (text.filter keepChar))

structure IcdEntry where
  key : Str
  code : Str
  desc : Str
deriving DecidableEq

/-- The inner loop of extract_icd_code: scan the dictionary keys in stored
order, returning the stored pair of the first description containing the
word. -/
def scanDescs (w : Str) : List IcdEntry → Option (Str × Str)
  | [] => none
  | e :: rest =>
    if hasSubstr w e.key then some (e.code, e.desc) else scanDescs w rest

/-- The outer loop of extract_icd_code over tokens in order. -/
def extract_icd_code_go (icd : List IcdEntry) : List Str → Option (Str × Str)
  | [] => none
  | w :: ws =>
    match scanDescs w icd with
    | some r => some r
    | none => extract_icd_code_go icd ws

/-- extract_icd_code from icd10.py; none models the (None, None) return. -/
def extract_icd_code (text : Str) (icd : List IcdEntry) : Option (Str × Str) :=
  extract_icd_code_go icd (clean_and_tokenize text)

/-- The resolver as the claim words it: for each token in order, the first
entry in stored order whose lowercase description contains the token as a
substring. -/
def resolveCodeSpec (text : Str) (icd : List IcdEntry) : Option (Str × Str) :=
  (clean_and_tokenize text).findSome? fun w =>
    (icd.find? fun e => hasSubstr w (lower e.desc)).map fun e =>
      (e.code, e.desc)

theorem scanDescs_eq_find (w : Str) :
    ∀ icd : List IcdEntry, (∀ e ∈ icd, e.key = lower e.desc) →
      scanDescs w icd =
        (icd.find? fun e => hasSubstr w (lower e.desc)).map fun e =>
          (e.code, e.desc) := by
  intro icd
  induction icd with
  | nil => intro _; rfl
  | cons e rest ih =>
    intro hkeys
    have hkey : e.key = lower e.desc := hkeys e (by simp)
    have hrest := ih (fun x hx => hkeys x (by simp [hx]))
    by_cases hsub : hasSubstr w (lower e.desc) = true
    · simp [scanDescs, List.find?_cons, hkey, hsub]
    · have hsub0 : hasSubstr w (lower e.desc) = false := by
        revert hsub
        cases hasSubstr w (lower e.desc) <;> simp
      simp [scanDescs, List.find?_cons, hkey, hsub0, hrest]

theorem scanDescs_none_iff (w : Str) :
    ∀ icd : List IcdEntry,
      (scanDescs w icd = none ↔ ∀ e ∈ icd, hasSubstr w e.key = false) := by
  intro icd
  induction icd with
  | nil => simp [scanDescs]
  | cons e rest ih =>
    by_cases hsub : hasSubstr w e.key = true
    · simp [scanDescs, hsub]
    · have hsub0 : hasSubstr w e.key = false := by
        cases h0 : hasSubstr w e.key
        · rfl
        · exact absurd h0 hsub
      simp [scanDescs, hsub0, ih]

theorem go_eq_findSome (icd : List IcdEntry)
    (hkeys : ∀ e ∈ icd, e.key = lower e.desc) :
    ∀ ws : List Str,
      extract_icd_code_go icd ws =
        ws.findSome? fun w =>
          (icd.find? fun e => hasSubstr w (lower e.desc)).map fun e =>
            (e.code, e.desc) := by
  intro ws
  induction ws with
  | nil => rfl
  | cons w ws ih =>
    rw [List.findSome?_cons]
    rw [← scanDescs_eq_find w icd hkeys]
    cases hscan : scanDescs w icd with
    | none => simp only [extract_icd_code_go, hscan]; exact ih
    | some r => simp only [extract_icd_code_go, hscan]

theorem go_none_iff (icd : List IcdEntry) :
    ∀ ws : List Str,
      (extract_icd_code_go icd ws = none ↔
        ∀ w ∈ ws, ∀ e ∈ icd, hasSubstr w e.key = false) := by
  intro ws
  induction ws with
  | nil => simp [extract_icd_code_go]
  | cons w ws ih =>
    cases hscan : scanDescs w icd with
    | none =>
      have hall := (scanDescs_none_iff w icd).mp hscan
      simp only [extract_icd_code_go, hscan]
      constructor
      · intro h x hx
        rcases List.mem_cons.mp hx with h1 | h1
        · subst h1; exact hall
        · exact (ih.mp h) x h1
      · intro h
        exact ih.mpr (fun x hx => h x (by simp [hx]))
    | some r =>
      simp only [extract_icd_code_go, hscan]
      constructor
      · intro h; exact absurd h (by simp)
      · intro h
        have := (scanDescs_none_iff w icd).mpr (h w (by simp))
        rw [this] at hscan
        exact absurd hscan (by simp)

end Icd10

/-- Claim C8: the Code Resolver tokenizes the corrected text into lowercase
punctuation-stripped words and, walking tokens in order and the stored
entries in order, returns the stored pair of the first description whose
lowercase form contains the token as a substring, and returns the empty
pair exactly when no token occurs inside any description. -/
theorem c8_code_resolver_first_match (text : Str)
    (icd : List Icd10.IcdEntry)
    (hkeys : ∀ e ∈ icd, e.key = lower e.desc) :
    Icd10.extract_icd_code text icd = Icd10.resolveCodeSpec text icd ∧
    (Icd10.extract_icd_code text icd = none ↔
      ∀ w ∈ Icd10.clean_and_tokenize text, ∀ e ∈ icd,
        hasSubstr w (lower e.desc) = false) := by
  constructor
  · exact Icd10.go_eq_findSome icd hkeys (Icd10.clean_and_tokenize text)
  · rw [Icd10.extract_icd_code, Icd10.go_none_iff]
    constructor
    · intro h w hw e he
      rw [← hkeys e he]
      exact h w hw e he
    · intro h w hw e he
      rw [hkeys e he]
      exact h w hw e he

/-- Witness for claim C8 at the Scenario E input: acute appendicitis against
a one-entry lexicon for appendicitis nos resolves to the stored pair. -/
theorem c8_witness :
    (Icd10.extract_icd_code "acute appendicitis".toList
        [⟨"appendicitis nos".toList, "K37".toList, "appendicitis nos".toList⟩] =
      Icd10.resolveCodeSpec "acute appendicitis".toList
        [⟨"appendicitis nos".toList, "K37".toList,
          "appendicitis nos".toList⟩] ∧
      (Icd10.extract_icd_code "acute appendicitis".toList
          [⟨"appendicitis nos".toList, "K37".toList,
            "appendicitis nos".toList⟩] = none ↔
        ∀ w ∈ Icd10.clean_and_tokenize "acute appendicitis".toList,
          ∀ e ∈ [(⟨"appendicitis nos".toList, "K37".toList,
              "appendicitis nos".toList⟩ : Icd10.IcdEntry)],
            hasSubstr w (lower e.desc) = false)) ∧
    Icd10.extract_icd_code "acute appendicitis".toList
        [⟨"appendicitis nos".toList, "K37".toList,
          "appendicitis nos".toList⟩] =
      some ("K37".toList, "appendicitis nos".toList) :=
  ⟨c8_code_resolver_first_match "acute appendicitis".toList
     [⟨"appendicitis nos".toList, "K37".toList, "appendicitis nos".toList⟩]
     (by decide),
   by decide⟩
